import Mathlib

/-!
Shallow embedding of the `anilist-tools` repository (files `utils.py` and
`upcoming_sequels.py`) and proofs about its specified behaviour.

The embedding models:
* a small JSON value type `J` for the bodies the GraphQL API returns;
* `safe_post_request` (request transport with 429 retry and the process-wide
  `total_queries` counter), driven by an explicit list of server responses;
* `depaginated_request` (the pagination driver with its envelope unwrapping
  and its `assert`s), driven by an explicit transport function and fuel;
* `get_related_media` (the relation-graph walker), driven by an explicit
  finite relation graph and fuel;
* `async_any` (the matcher helper), instrumented with a consumption counter
  standing for how many generator yields were pulled;
* the pieces of `main` that the claims mention (the user-media-id union and
  the English/romaji title fallback).
-/

set_option linter.unusedVariables false

/-- A minimal JSON value model for API response bodies. -/
inductive J where
  | null : J
  | bool : Bool → J
  | num : Int → J
  | str : String → J
  | list : List J → J
  | obj : List (String × J) → J

/-- Key lookup on a JSON object (`body[key]` when present), `none` otherwise. -/
def jGet : J → String → Option J
  | J.obj kvs, k => kvs.lookup k
  | _, _ => none

/-- `MAX_PAGE_SIZE` from `utils.py`: the API's maximum page size. -/
def MAX_PAGE_SIZE : Nat := 50

/-- The envelope-unwrapping loop of `depaginated_request` (`utils.py` lines
86-90): while `pageInfo` is not a key of the current object, assert the object
is non-empty, assert it has exactly one key, and descend into that key's
value.  Assertion failures are modelled as `Except.error` with the Python
assert message; descending into a non-object likewise fails loudly. -/
def unwrap : J → Except String J
  | J.obj kvs =>
    if "pageInfo" ∈ kvs.map Prod.fst then Except.ok (J.obj kvs)
    else
      match kvs with
      | [] => Except.error "Could not find pageInfo in paginated request."
      | [(_, v)] => unwrap v
      | _ => Except.error "Cannot de-paginate query with multiple returned fields."
  | _ => Except.error "Could not find pageInfo in paginated request."

/-- One page-processing step of `depaginated_request` (`utils.py` lines
86-96): unwrap the envelope, assert the resulting object has exactly two keys,
extract the non-`pageInfo` list and `pageInfo.hasNextPage`. -/
def extractPage (j : J) : Except String (List J × Bool) :=
  match unwrap j with
  | Except.error e => Except.error e
  | Except.ok o =>
    match o with
    | J.obj kvs =>
      if kvs.length = 2 then
        match kvs.find? (fun kv => kv.1 ≠ "pageInfo") with
        | some (_, J.list items) =>
          match kvs.lookup "pageInfo" with
          | some (J.obj pkvs) =>
            match pkvs.lookup "hasNextPage" with
            | some (J.bool b) => Except.ok (items, b)
            | _ => Except.error "pageInfo object lacks a boolean hasNextPage"
          | _ => Except.error "pageInfo key does not hold an object"
        | _ => Except.error "paginated field does not hold a list"
      else Except.error "Cannot de-paginate query with multiple returned fields."
    | _ => Except.error "Could not find pageInfo in paginated request."

/-- Result of a depaginated request: either the accumulated list together with
the log of `(perPage, page)` request parameters issued, a fatal assertion
failure, or fuel exhaustion (only reachable when the given fuel undershoots
the number of pages the server serves). -/
inductive DepagResult where
  | ok : List J → List (Nat × Nat) → DepagResult
  | fail : String → DepagResult
  | outOfFuel : DepagResult

/-- The page loop of `depaginated_request` (`utils.py` lines 76-99): starting
from `page`, request `transport perPage page` with `perPage = MAX_PAGE_SIZE`,
append the page's list to the accumulator, log the request parameters, and
stop when `hasNextPage` is false.  `transport` stands for the GraphQL query
evaluated at the paginated variables. -/
def depaginatedAux (transport : Nat → Nat → J) :
    Nat → Nat → List J → List (Nat × Nat) → DepagResult
  | 0, _, _, _ => DepagResult.outOfFuel
  | fuel + 1, page, acc, log =>
    match extractPage (transport MAX_PAGE_SIZE page) with
    | Except.error e => DepagResult.fail e
    | Except.ok (items, hasNext) =>
      if hasNext then
        depaginatedAux transport fuel (page + 1) (acc ++ items) (log ++ [(MAX_PAGE_SIZE, page)])
      else
        DepagResult.ok (acc ++ items) (log ++ [(MAX_PAGE_SIZE, page)])

/-- `depaginated_request` (`utils.py` lines 66-99): run the page loop starting
at page 1 with an empty accumulator. -/
def depaginated_request (transport : Nat → Nat → J) (fuel : Nat) : DepagResult :=
  depaginatedAux transport fuel 1 [] []

/-- A fake paginated source serving `items`: page `page` (1-indexed) holds the
slice of `items` of length `perPage` starting at `(page - 1) * perPage`, and
`hasNextPage` is true exactly when further items remain. -/
def fakeServer (items : List J) (perPage page : Nat) : J :=
  J.obj [("pageInfo", J.obj [("hasNextPage", J.bool (decide (page * perPage < items.length)))]),
         ("mediaList", J.list ((items.drop ((page - 1) * perPage)).take perPage))]

/-- A media title as fetched from the API: `english` may be absent (`none`,
Python `None`); the model also lets it be the empty string to cover all
falsy Python values. -/
structure Title where
  english : Option String
  romaji : String
deriving DecidableEq

/-- A relation-edge node as fetched by the walker's query (`upcoming_sequels.py`
lines 96-107): its id, title and tag names. -/
structure Media where
  id : Nat
  title : Title
  tags : List String
deriving DecidableEq

/-- A relation edge (`relationType` plus its `node`). -/
structure Relation where
  relationType : String
  node : Media
deriving DecidableEq

/-- A finite relation graph: for each media id, the list of relation edges the
API would return for it (the `Media.relations.edges` of that id). -/
def Graph : Type := List (Nat × List Relation)

/-- The relation edges of `id` in `g` (empty when `id` is not in the graph). -/
def getRelations (g : Graph) (id : Nat) : List Relation :=
  (List.lookup id g).getD []

/-- The walker's expansion filter (`upcoming_sequels.py` lines 127-128): a
node is enqueued for further expansion iff its edge's `relationType` is one of
SEQUEL, PREQUEL, SOURCE, ALTERNATIVE and none of its tags is named
"Crossover". -/
def expandable (rel : Relation) : Bool :=
  (rel.relationType ∈ ["SEQUEL", "PREQUEL", "SOURCE", "ALTERNATIVE"]) &&
    ! rel.node.tags.any (fun tag => tag == "Crossover")

/-- The inner `for relation in relations` loop of `get_related_media`
(`upcoming_sequels.py` lines 118-131).  State: `visited` is
`related_show_ids` (a Python set, modelled as a `Finset`), `queue` the
pending-expansion worklist, `yielded` the shows yielded so far.  A node whose
id is already visited is skipped entirely; otherwise it is marked visited,
yielded unless it is the root `show_id`, and enqueued iff `expandable`. -/
def processRelations (show_id : Nat) :
    List Relation → Finset Nat → List Nat → List Media →
    Finset Nat × List Nat × List Media
  | [], visited, queue, yielded => (visited, queue, yielded)
  | rel :: rest, visited, queue, yielded =>
    if rel.node.id ∈ visited then
      processRelations show_id rest visited queue yielded
    else
      processRelations show_id rest (insert rel.node.id visited)
        (if expandable rel then queue ++ [rel.node.id] else queue)
        (if rel.node.id ≠ show_id then yielded ++ [rel.node] else yielded)

/-- The outer `while queue` loop of `get_related_media` (`upcoming_sequels.py`
lines 114-131), with fuel bounding the number of loop iterations (each
iteration pops one id and issues one relations query).  Returns the list of
yielded shows in order, plus a flag telling whether the queue was fully
drained (`true`) or the fuel ran out first. -/
def walkAux (g : Graph) (show_id : Nat) :
    Nat → List Nat → Finset Nat → List Media → List Media × Bool
  | 0, queue, _, yielded => (yielded, queue.isEmpty)
  | _ + 1, [], _, yielded => (yielded, true)
  | fuel + 1, cur :: rest, visited, yielded =>
    let step := processRelations show_id (getRelations g cur) visited rest yielded
    walkAux g show_id fuel step.2.1 step.1 step.2.2

/-- `get_related_media` (`upcoming_sequels.py` lines 83-131): walk the
relation graph from `show_id` with a fresh queue `{show_id}` and a fresh
visited set `{show_id}` ("including itself to start avoids special-casing"). -/
def get_related_media (g : Graph) (show_id : Nat) (fuel : Nat) : List Media × Bool :=
  walkAux g show_id fuel [show_id] {show_id} []

/-- An HTTP response as seen by `safe_post_request`: status code, optional
`Retry-After` header value (seconds), and decoded JSON body. -/
structure Resp where
  status : Nat
  retryAfter : Option Nat
  body : J

/-- The retry loop of `safe_post_request` (`utils.py` lines 14-50), fed the
sequence of responses the server would return to the successive attempts.
Returns the first non-429 response, the number of requests issued to obtain
it, and the sleeps performed after each response (`some (retryAfter + 1)`
seconds when the `Retry-After` header is present, `none` for the fixed
sub-second sleep otherwise); `none` overall if every provided response is a
429 (the loop would still be retrying). -/
def sendAux : List Resp → Option (Resp × Nat × List (Option Nat))
  | [] => none
  | r :: rest =>
    if r.status = 429 then
      match sendAux rest with
      | none => none
      | some (final, n, sleeps) => some (final, n + 1, (r.retryAfter.map (· + 1)) :: sleeps)
    else some (r, 1, [r.retryAfter.map (· + 1)])

/-- Outcome of `safe_post_request` after the retry loop: the `data` field
returned, a raised HTTP-status failure (the flag records whether an `errors`
list from the body was printed first), or a key error (`data` absent from the
body, which Python would raise as `KeyError`). -/
inductive SendResult where
  | ok : J → SendResult
  | raised : Bool → SendResult
  | keyError : SendResult

/-- `safe_post_request` (`utils.py` lines 10-59): run the retry loop; on its
final non-429 response increment the process-wide `total_queries` counter
once; if the response status is an error (≥ 400, i.e. `not response.ok`),
print the body's `errors` list when present and raise; otherwise return the
body's `data` field.  Returns the outcome, the new counter value, the number
of requests issued, and the sleep log; `none` when the loop never obtains a
non-429 response. -/
def safe_post_request (responses : List Resp) (total_queries : Nat) :
    Option (SendResult × Nat × Nat × List (Option Nat)) :=
  match sendAux responses with
  | none => none
  | some (final, n, sleeps) =>
    let tq := total_queries + 1
    if 400 ≤ final.status then
      some (SendResult.raised ((jGet final.body "errors").isSome), tq, n, sleeps)
    else
      match jGet final.body "data" with
      | some d => some (SendResult.ok d, tq, n, sleeps)
      | none => some (SendResult.keyError, tq, n, sleeps)

/-- `async_any` (`utils.py` lines 113-119), instrumented with a consumption
counter: returns the boolean result together with how many elements of the
(lazy) boolean sequence were consumed.  It stops pulling as soon as an
element is true. -/
def async_any : List Bool → Bool × Nat
  | [] => (false, 0)
  | b :: rest =>
    if b then (true, 1)
    else
      let p := async_any rest
      (p.1, p.2 + 1)

/-- The membership check of `main` (`upcoming_sequels.py` line 169):
`async_any(related_media['id'] in user_media_ids async for related_media in
get_related_media(show['id']))` — drive the walker from `showId` and test
each yielded node's id for membership in `userIds`, short-circuiting.
Returns the boolean and the number of walker yields consumed. -/
def hasUpcomingRelation (g : Graph) (showId : Nat) (fuel : Nat)
    (userIds : Finset Nat) : Bool × Nat :=
  async_any (((get_related_media g showId fuel).1).map (fun m => decide (m.id ∈ userIds)))

/-- The user-media-id union of `main` (`upcoming_sequels.py` lines 150-152):
fetch the user's lists for the three statuses and union their media ids.
`userMedia` stands for `get_user_media user_id status`; the parsed
`--planning`/`--completed` flags are passed through exactly as the code does
— they are never consulted. -/
def user_media_ids (userMedia : String → List Media)
    (planning completed : Bool) : Finset Nat :=
  (["COMPLETED", "PLANNING", "CURRENT"].map
      (fun status => ((userMedia status).map Media.id).toFinset)).foldl
    (fun acc s => acc ∪ s) ∅

/-- The printed title of a matched show (`upcoming_sequels.py` line 170):
`show['title']['english'] or show['title']['romaji']` — Python `or` takes the
english title when truthy (present and non-empty) and the romaji title
otherwise. -/
def displayTitle (t : Title) : String :=
  match t.english with
  | some s => if s = "" then t.romaji else s
  | none => t.romaji

/-- Example node A (id 1). -/
def exMediaA : Media := ⟨1, ⟨none, "A"⟩, []⟩

/-- Example node B (id 2). -/
def exMediaB : Media := ⟨2, ⟨none, "B"⟩, []⟩

/-- Example node C (id 3). -/
def exMediaC : Media := ⟨3, ⟨none, "C"⟩, []⟩

/-- Example node B tagged "Crossover" (id 2). -/
def exMediaBCross : Media := ⟨2, ⟨none, "B"⟩, ["Crossover"]⟩

/-- A cyclic relation graph A→B→A (ids 1 and 2, SEQUEL edges both ways). -/
def cycleGraph : Graph := [(1, [⟨"SEQUEL", exMediaB⟩]), (2, [⟨"SEQUEL", exMediaA⟩])]

/-- A graph where B is reachable from the root only via a SIDE_STORY edge and
B has a SEQUEL child C. -/
def sideStoryGraph : Graph := [(1, [⟨"SIDE_STORY", exMediaB⟩]), (2, [⟨"SEQUEL", exMediaC⟩])]

/-- A graph where B is a SEQUEL of the root but tagged "Crossover", and B has
a SEQUEL child C. -/
def crossoverGraph : Graph := [(1, [⟨"SEQUEL", exMediaBCross⟩]), (2, [⟨"SEQUEL", exMediaC⟩])]

/-- All ids appearing as relation-edge targets anywhere in the graph. -/
def graphIds (g : Graph) : Finset Nat :=
  ((g.map (fun p => p.2.map (fun r => r.node.id))).flatten).toFinset

/- ### Lemmas about the walker's inner loop -/

theorem processRelations_visited_subset (show_id : Nat) :
    ∀ (rels : List Relation) (v : Finset Nat) (q : List Nat) (ys : List Media),
      v ⊆ (processRelations show_id rels v q ys).1 := by
  intro rels
  induction rels with
  | nil => intro v q ys; simp [processRelations]
  | cons rel rest ih =>
    intro v q ys
    by_cases h : rel.node.id ∈ v
    · simpa [processRelations, h] using ih v q ys
    · simp only [processRelations, h, if_neg, if_false]
      exact (Finset.subset_insert _ _).trans (ih _ _ _)

theorem processRelations_queue_fresh (show_id : Nat) :
    ∀ (rels : List Relation) (v : Finset Nat) (q : List Nat) (ys : List Media) (x : Nat),
      x ∈ (processRelations show_id rels v q ys).2.1 → x ∈ q ∨ x ∉ v := by
  intro rels
  induction rels with
  | nil => intro v q ys x hx; exact Or.inl (by simpa [processRelations] using hx)
  | cons rel rest ih =>
    intro v q ys x hx
    by_cases h : rel.node.id ∈ v
    · simp only [processRelations, h, if_pos] at hx
      exact ih v q ys x hx
    · simp only [processRelations, h, if_neg, if_false] at hx
      rcases ih _ _ _ _ hx with hq | hv
      · by_cases he : expandable rel
        · simp only [he, if_pos] at hq
          rcases List.mem_append.mp hq with hq' | hq'
          · exact Or.inl hq'
          · simp only [List.mem_singleton] at hq'
            subst hq'
            exact Or.inr h
        · simp only [he, if_neg, if_false] at hq
          exact Or.inl hq
      · by_cases hxr : x = rel.node.id
        · subst hxr; exact Or.inr h
        · exact Or.inr fun hxv => hv (Finset.mem_insert_of_mem hxv)

theorem processRelations_yield_fresh (show_id : Nat) :
    ∀ (rels : List Relation) (v : Finset Nat) (q : List Nat) (ys : List Media) (s : Media),
      s ∈ (processRelations show_id rels v q ys).2.2 → s ∈ ys ∨ s.id ∉ v := by
  intro rels
  induction rels with
  | nil => intro v q ys s hs; exact Or.inl (by simpa [processRelations] using hs)
  | cons rel rest ih =>
    intro v q ys s hs
    by_cases h : rel.node.id ∈ v
    · simp only [processRelations, h, if_pos] at hs
      exact ih v q ys s hs
    · simp only [processRelations, h, if_neg, if_false] at hs
      rcases ih _ _ _ _ hs with hy | hv
      · by_cases hr : rel.node.id = show_id
        · rw [if_neg (fun hne => hne hr)] at hy
          exact Or.inl hy
        · rw [if_pos hr] at hy
          rcases List.mem_append.mp hy with hy' | hy'
          · exact Or.inl hy'
          · simp only [List.mem_singleton] at hy'
            subst hy'
            exact Or.inr h
      · by_cases hsr : s.id = rel.node.id
        · rw [hsr]; exact Or.inr h
        · exact Or.inr fun hsv => hv (Finset.mem_insert_of_mem hsv)

theorem processRelations_queue_visited (show_id : Nat) :
    ∀ (rels : List Relation) (v : Finset Nat) (q : List Nat) (ys : List Media),
      (∀ x ∈ q, x ∈ v) →
      ∀ x ∈ (processRelations show_id rels v q ys).2.1,
        x ∈ (processRelations show_id rels v q ys).1 := by
  intro rels
  induction rels with
  | nil => intro v q ys hqv x hx; simp only [processRelations] at hx ⊢; exact hqv x hx
  | cons rel rest ih =>
    intro v q ys hqv
    by_cases h : rel.node.id ∈ v
    · simp only [processRelations, h, if_pos]
      exact ih v q ys hqv
    · simp only [processRelations, h, if_neg, if_false]
      refine ih _ _ _ ?_
      intro x hx
      by_cases he : expandable rel
      · simp only [he, if_pos] at hx
        rcases List.mem_append.mp hx with hx' | hx'
        · exact Finset.mem_insert_of_mem (hqv x hx')
        · simp only [List.mem_singleton] at hx'
          subst hx'
          exact Finset.mem_insert_self _ _
      · simp only [he, if_neg, if_false] at hx
        exact Finset.mem_insert_of_mem (hqv x hx)

theorem processRelations_yield_inv (show_id : Nat) :
    ∀ (rels : List Relation) (v : Finset Nat) (q : List Nat) (ys : List Media),
      (∀ s ∈ ys, s.id ∈ v) → (ys.map Media.id).Nodup →
      (∀ s ∈ (processRelations show_id rels v q ys).2.2,
          s.id ∈ (processRelations show_id rels v q ys).1) ∧
        ((processRelations show_id rels v q ys).2.2.map Media.id).Nodup := by
  intro rels
  induction rels with
  | nil =>
    intro v q ys hy hnd
    exact ⟨by simpa [processRelations] using hy, by simpa [processRelations] using hnd⟩
  | cons rel rest ih =>
    intro v q ys hy hnd
    by_cases h : rel.node.id ∈ v
    · simp only [processRelations, h, if_pos]
      exact ih v q ys hy hnd
    · simp only [processRelations, h, if_neg, if_false]
      by_cases hr : rel.node.id = show_id
      · rw [if_neg (show ¬ rel.node.id ≠ show_id from fun hne => hne hr)]
        refine ih _ _ _ ?_ hnd
        intro s hs
        exact Finset.mem_insert_of_mem (hy s hs)
      · rw [if_pos (show rel.node.id ≠ show_id from hr)]
        refine ih _ _ _ ?_ ?_
        · intro s hs
          rcases List.mem_append.mp hs with hs' | hs'
          · exact Finset.mem_insert_of_mem (hy s hs')
          · simp only [List.mem_singleton] at hs'
            subst hs'
            exact Finset.mem_insert_self _ _
        · rw [List.map_append, List.nodup_append]
          refine ⟨hnd, List.nodup_singleton _, ?_⟩
          intro a ha hb
          simp only [List.map_singleton, List.mem_singleton] at hb
          subst hb
          rcases List.mem_map.mp ha with ⟨s, hs, hsid⟩
          exact h (hsid ▸ hy s hs)

theorem walkAux_yield_inv (g : Graph) (show_id : Nat) :
    ∀ (fuel : Nat) (q : List Nat) (v : Finset Nat) (ys : List Media),
      show_id ∈ v → (∀ s ∈ ys, s.id ∈ v) → (ys.map Media.id).Nodup →
      show_id ∉ ys.map Media.id →
      ((walkAux g show_id fuel q v ys).1.map Media.id).Nodup ∧
        show_id ∉ (walkAux g show_id fuel q v ys).1.map Media.id := by
  intro fuel
  induction fuel with
  | zero => intro q v ys hroot hy hnd hns; exact ⟨hnd, hns⟩
  | succ fuel ih =>
    intro q v ys hroot hy hnd hns
    match q with
    | [] => exact ⟨hnd, hns⟩
    | cur :: rest =>
      simp only [walkAux]
      have hinv := processRelations_yield_inv show_id (getRelations g cur) v rest ys hy hnd
      refine ih _ _ _ ?_ hinv.1 hinv.2 ?_
      · exact processRelations_visited_subset show_id (getRelations g cur) v rest ys hroot
      · intro hmem
        rcases List.mem_map.mp hmem with ⟨s, hs, hsid⟩
        rcases processRelations_yield_fresh show_id (getRelations g cur) v rest ys s hs with
          hold | hfresh
        · exact hns (List.mem_map.mpr ⟨s, hold, hsid⟩)
        · exact hfresh (hsid ▸ hroot)

theorem graphIds_cons (a : Nat) (l : List Relation) (tl : Graph) :
    graphIds ((a, l) :: tl) = (l.map (fun r => r.node.id)).toFinset ∪ graphIds tl := by
  simp [graphIds, List.flatten_cons]

theorem mem_graphIds (g : Graph) :
    ∀ (cur : Nat) (r : Relation), r ∈ getRelations g cur → r.node.id ∈ graphIds g := by
  induction g with
  | nil => intro cur r hr; simp [getRelations, List.lookup] at hr
  | cons p tl ih =>
    intro cur r hr
    obtain ⟨a, l⟩ := p
    by_cases hc : cur = a
    · have hbeq : (cur == a) = true := beq_iff_eq.mpr hc
      have hrel : getRelations ((a, l) :: tl) cur = l := by
        simp [getRelations, List.lookup, hbeq]
      rw [hrel] at hr
      rw [graphIds_cons]
      exact Finset.mem_union_left _
        (List.mem_toFinset.mpr (List.mem_map.mpr ⟨r, hr, rfl⟩))
    · have hbeq : (cur == a) = false := beq_eq_false_iff_ne.mpr hc
      have hrel : getRelations ((a, l) :: tl) cur = getRelations tl cur := by
        simp [getRelations, List.lookup, hbeq]
      rw [hrel] at hr
      rw [graphIds_cons]
      exact Finset.mem_union_right _ (ih cur r hr)

theorem processRelations_measure (show_id : Nat) (U : Finset Nat) :
    ∀ (rels : List Relation) (v : Finset Nat) (q : List Nat) (ys : List Media),
      v ⊆ U → (∀ r ∈ rels, r.node.id ∈ U) →
      (processRelations show_id rels v q ys).1 ⊆ U ∧
        (processRelations show_id rels v q ys).2.1.length +
            (U \ (processRelations show_id rels v q ys).1).card ≤
          q.length + (U \ v).card := by
  intro rels
  induction rels with
  | nil => intro v q ys hvU hrels; exact ⟨hvU, le_refl _⟩
  | cons rel rest ih =>
    intro v q ys hvU hrels
    have hrelU : rel.node.id ∈ U := hrels rel (List.mem_cons_self _ _)
    have hrest : ∀ r ∈ rest, r.node.id ∈ U := fun r hr => hrels r (List.mem_cons_of_mem _ hr)
    by_cases h : rel.node.id ∈ v
    · simp only [processRelations, h, if_pos]
      exact ih v q ys hvU hrest
    · simp only [processRelations, h, if_neg, if_false]
      have hins : insert rel.node.id v ⊆ U := Finset.insert_subset hrelU hvU
      have hcard : (U \ insert rel.node.id v).card + 1 = (U \ v).card := by
        rw [Finset.sdiff_insert]
        rw [Finset.card_erase_of_mem (Finset.mem_sdiff.mpr ⟨hrelU, h⟩)]
        have hpos : 0 < (U \ v).card :=
          Finset.card_pos.mpr ⟨rel.node.id, Finset.mem_sdiff.mpr ⟨hrelU, h⟩⟩
        omega
      by_cases he : expandable rel
      · simp only [he, if_pos]
        refine ⟨(ih _ _ _ hins hrest).1, le_trans (ih _ _ _ hins hrest).2 ?_⟩
        simp only [List.length_append, List.length_singleton]
        omega
      · simp only [he, Bool.false_eq_true, if_false]
        refine ⟨(ih _ _ _ hins hrest).1, le_trans (ih _ _ _ hins hrest).2 ?_⟩
        omega

theorem walkAux_drains (g : Graph) (show_id : Nat) (U : Finset Nat)
    (hU : ∀ (cur : Nat) (r : Relation), r ∈ getRelations g cur → r.node.id ∈ U) :
    ∀ (fuel : Nat) (q : List Nat) (v : Finset Nat) (ys : List Media),
      v ⊆ U → q.length + (U \ v).card ≤ fuel →
      (walkAux g show_id fuel q v ys).2 = true := by
  intro fuel
  induction fuel with
  | zero =>
    intro q v ys hvU hm
    have : q = [] := List.length_eq_zero.mp (by omega)
    subst this
    rfl
  | succ fuel ih =>
    intro q v ys hvU hm
    match q with
    | [] => rfl
    | cur :: rest =>
      simp only [walkAux]
      have hmeas := processRelations_measure show_id U (getRelations g cur) v rest ys hvU
        (fun r hr => hU cur r hr)
      refine ih _ _ _ hmeas.1 ?_
      have : (cur :: rest).length = rest.length + 1 := by simp
      omega

theorem walkAux_stable (g : Graph) (show_id : Nat) :
    ∀ (fuel1 fuel2 : Nat) (q : List Nat) (v : Finset Nat) (ys : List Media),
      fuel1 ≤ fuel2 → (walkAux g show_id fuel1 q v ys).2 = true →
      walkAux g show_id fuel2 q v ys = walkAux g show_id fuel1 q v ys := by
  intro fuel1
  induction fuel1 with
  | zero =>
    intro fuel2 q v ys hle hdone
    have hq : q = [] := by
      simp only [walkAux] at hdone
      exact List.isEmpty_iff.mp hdone
    subst hq
    match fuel2 with
    | 0 => rfl
    | _ + 1 => rfl
  | succ fuel1 ih =>
    intro fuel2 q v ys hle hdone
    match q with
    | [] =>
      match fuel2 with
      | 0 => exact absurd hle (by omega)
      | _ + 1 => rfl
    | cur :: rest =>
      match fuel2 with
      | 0 => exact absurd hle (by omega)
      | fuel2 + 1 =>
        simp only [walkAux] at hdone ⊢
        exact ih fuel2 _ _ _ (by omega) hdone

/-- C1: In every invocation of the relation-graph walker `get_related_media`,
on any relation graph: the visited set only grows (the inner loop's output
visited set contains its input), an ID already in the visited set is never
newly enqueued and a show with an already-visited ID is never newly yielded,
the root's own ID never appears among the yields, and the yielded IDs are
pairwise distinct (each non-root node yielded at most once).  On the cyclic
graph A→B→A the walk yields B exactly once, never yields the root A, and
drains its queue. -/
theorem walker_invariants :
    (∀ (g : Graph) (show_id fuel : Nat),
        ((get_related_media g show_id fuel).1.map Media.id).Nodup ∧
          show_id ∉ (get_related_media g show_id fuel).1.map Media.id) ∧
    (∀ (show_id : Nat) (rels : List Relation) (v : Finset Nat) (q : List Nat) (ys : List Media),
        v ⊆ (processRelations show_id rels v q ys).1) ∧
    (∀ (show_id : Nat) (rels : List Relation) (v : Finset Nat) (q : List Nat) (ys : List Media)
        (x : Nat), x ∈ (processRelations show_id rels v q ys).2.1 → x ∈ q ∨ x ∉ v) ∧
    (∀ (show_id : Nat) (rels : List Relation) (v : Finset Nat) (q : List Nat) (ys : List Media)
        (s : Media), s ∈ (processRelations show_id rels v q ys).2.2 → s ∈ ys ∨ s.id ∉ v) ∧
    ((get_related_media cycleGraph 1 3).1 = [exMediaB] ∧
      (get_related_media cycleGraph 1 3).2 = true) := by
  refine ⟨?_, processRelations_visited_subset, processRelations_queue_fresh,
    processRelations_yield_fresh, ?_, ?_⟩
  · intro g show_id fuel
    exact walkAux_yield_inv g show_id fuel [show_id] {show_id} []
      (Finset.mem_singleton_self _) (by simp) (by simp) (by simp)
  · decide
  · decide

/-- C1 witness: the processRelations freshness facts applied at a concrete
state of the cyclic example (id 2 enqueued from queue `[]`, visited `{1}`). -/
theorem walker_invariants_witness :
    ((2 : Nat) ∈ ([] : List Nat) ∨ (2 : Nat) ∉ ({1} : Finset Nat)) ∧
      (exMediaB ∈ ([] : List Media) ∨ exMediaB.id ∉ ({1} : Finset Nat)) := by
  constructor
  · exact walker_invariants.2.2.1 1 [⟨"SEQUEL", exMediaB⟩] {1} [] [] 2 (by decide)
  · exact walker_invariants.2.2.2.1 1 [⟨"SEQUEL", exMediaB⟩] {1} [] [] exMediaB (by decide)

/-- C3: when the walker's inner loop reaches a not-yet-visited node, the node
is yielded whenever its ID differs from the root — regardless of relation
type or tags — and it is enqueued for expansion if and only if its edge's
`relationType` is one of SEQUEL, PREQUEL, SOURCE, ALTERNATIVE and none of its
tags is named "Crossover".  Concretely: a node reachable only via SIDE_STORY
is yielded but its child is never reached, and a Crossover-tagged SEQUEL node
is yielded but its child is never reached. -/
theorem walker_yield_and_expand :
    (∀ (show_id : Nat) (rel : Relation) (v : Finset Nat) (q : List Nat) (ys : List Media),
        rel.node.id ∉ v →
        (processRelations show_id [rel] v q ys).2.2 =
          (if rel.node.id ≠ show_id then ys ++ [rel.node] else ys) ∧
        (processRelations show_id [rel] v q ys).2.1 =
          (if rel.relationType ∈ ["SEQUEL", "PREQUEL", "SOURCE", "ALTERNATIVE"] ∧
              "Crossover" ∉ rel.node.tags then q ++ [rel.node.id] else q)) ∧
    ((get_related_media sideStoryGraph 1 5).1 = [exMediaB] ∧
      (get_related_media sideStoryGraph 1 5).2 = true) ∧
    ((get_related_media crossoverGraph 1 5).1 = [exMediaBCross] ∧
      (get_related_media crossoverGraph 1 5).2 = true) := by
  refine ⟨?_, ⟨by decide, by decide⟩, ⟨by decide, by decide⟩⟩
  intro show_id rel v q ys h
  have hexp : expandable rel = true ↔
      rel.relationType ∈ ["SEQUEL", "PREQUEL", "SOURCE", "ALTERNATIVE"] ∧
        "Crossover" ∉ rel.node.tags := by
    simp only [expandable, Bool.and_eq_true, Bool.not_eq_true', decide_eq_true_eq,
      List.any_eq_false, beq_iff_eq]
    constructor
    · rintro ⟨hm, hno⟩
      exact ⟨hm, fun hc => by simpa using hno "Crossover" hc⟩
    · rintro ⟨hm, hno⟩
      exact ⟨hm, fun tag htag htageq => hno (htageq ▸ htag)⟩
  constructor
  · simp only [processRelations, h, if_neg, if_false]
  · simp only [processRelations, h, if_neg, if_false]
    by_cases he : expandable rel
    · rw [if_pos he, if_pos (hexp.mp he)]
    · rw [if_neg he, if_neg (fun hc => he (hexp.mpr hc))]

/-- C3 witness: the yield/enqueue characterization applied to a concrete
fresh SEQUEL relation at visited set `{1}`. -/
theorem walker_yield_and_expand_witness :
    (processRelations 1 [⟨"SEQUEL", exMediaB⟩] {1} [] []).2.2 =
      (if exMediaB.id ≠ 1 then [] ++ [exMediaB] else []) ∧
    (processRelations 1 [⟨"SEQUEL", exMediaB⟩] {1} [] []).2.1 =
      (if (Relation.mk "SEQUEL" exMediaB).relationType ∈
            ["SEQUEL", "PREQUEL", "SOURCE", "ALTERNATIVE"] ∧
          "Crossover" ∉ exMediaB.tags then [] ++ [exMediaB.id] else []) :=
  walker_yield_and_expand.1 1 ⟨"SEQUEL", exMediaB⟩ {1} [] [] (by decide)

/-- C7: on every finite relation graph a single walk invocation terminates —
with fuel at least `1 + (graphIds g).card` (one outer iteration per node the
graph can ever surface, plus one for the root) the queue is fully drained, and
adding more fuel changes nothing, so the yield sequence is the fixed finite
list computed at that bound.  Each invocation starts from a fresh frontier
queue `[show_id]` and fresh visited set `{show_id}`. -/
theorem walker_terminates (g : Graph) (show_id fuel : Nat)
    (hfuel : 1 + (graphIds g).card ≤ fuel) :
    (get_related_media g show_id fuel).2 = true ∧
      get_related_media g show_id fuel = get_related_media g show_id (1 + (graphIds g).card) ∧
      get_related_media g show_id fuel = walkAux g show_id fuel [show_id] {show_id} [] := by
  have hU : ∀ (cur : Nat) (r : Relation), r ∈ getRelations g cur →
      r.node.id ∈ insert show_id (graphIds g) :=
    fun cur r hr => Finset.mem_insert_of_mem (mem_graphIds g cur r hr)
  have hmeas : [show_id].length + (insert show_id (graphIds g) \ {show_id}).card ≤
      1 + (graphIds g).card := by
    have h1 : insert show_id (graphIds g) \ {show_id} ⊆ graphIds g := by
      intro x hx
      rcases Finset.mem_sdiff.mp hx with ⟨hxi, hxn⟩
      rcases Finset.mem_insert.mp hxi with hxs | hxg
      · exact absurd (Finset.mem_singleton.mpr hxs) hxn
      · exact hxg
    have := Finset.card_le_card h1
    simp only [List.length_singleton]
    omega
  have hsub : ({show_id} : Finset Nat) ⊆ insert show_id (graphIds g) := by
    intro x hx
    rw [Finset.mem_singleton.mp hx]
    exact Finset.mem_insert_self _ _
  have hdone : (get_related_media g show_id (1 + (graphIds g).card)).2 = true :=
    walkAux_drains g show_id (insert show_id (graphIds g)) hU _ [show_id] {show_id} []
      hsub hmeas
  have hstable : get_related_media g show_id fuel =
      get_related_media g show_id (1 + (graphIds g).card) :=
    walkAux_stable g show_id (1 + (graphIds g).card) fuel [show_id] {show_id} [] hfuel hdone
  exact ⟨hstable ▸ hdone, hstable, rfl⟩

/-- C7 witness: the termination theorem applied to the cyclic example graph
with fuel exactly at the bound. -/
theorem walker_terminates_witness :
    (get_related_media cycleGraph 1 3).2 = true ∧
      get_related_media cycleGraph 1 3 = get_related_media cycleGraph 1 (1 + (graphIds cycleGraph).card) ∧
      get_related_media cycleGraph 1 3 = walkAux cycleGraph 1 3 [1] {1} [] :=
  walker_terminates cycleGraph 1 3 (by decide)

theorem extract_fake (items : List J) (pp page : Nat) :
    extractPage (fakeServer items pp page) =
      Except.ok ((items.drop ((page - 1) * pp)).take pp,
        decide (page * pp < items.length)) := rfl

theorem pages_small (r : Nat) (h : r ≤ 50) : max 1 ((r + 49) / 50) = 1 := by
  have h1 : (r + 49) / 50 ≤ 1 := by
    apply Nat.le_of_lt_succ
    rw [Nat.div_lt_iff_lt_mul (by norm_num)]
    omega
  exact Nat.max_eq_left h1

theorem pages_step (r : Nat) (h : 50 < r) :
    max 1 ((r + 49) / 50) = 1 + max 1 ((r - 50 + 49) / 50) := by
  have h1 : r - 50 + 49 = r - 1 := by omega
  have h2 : r + 49 = (r - 1) + 50 := by omega
  rw [h1, h2, Nat.add_div_right _ (by norm_num)]
  have h3 : 1 ≤ (r - 1) / 50 := by
    rw [Nat.le_div_iff_mul_le (by norm_num)]
    omega
  rw [Nat.max_eq_right (by omega), Nat.max_eq_right h3]
  omega

theorem depagAux_fake (items : List J) :
    ∀ (fuel page : Nat) (acc : List J) (log : List (Nat × Nat)),
      1 ≤ page → 1 ≤ fuel → items.length ≤ (page - 1) * 50 + fuel * 50 →
      depaginatedAux (fakeServer items) fuel page acc log =
        DepagResult.ok (acc ++ items.drop ((page - 1) * 50))
          (log ++ (List.range (max 1 ((items.length - (page - 1) * 50 + 49) / 50))).map
            (fun i => (MAX_PAGE_SIZE, page + i))) := by
  intro fuel
  induction fuel with
  | zero => intro page acc log hp hf hlen; omega
  | succ fuel ih =>
    intro page acc log hp hf hlen
    rw [depaginatedAux, extract_fake]
    simp only [MAX_PAGE_SIZE] at *
    by_cases hlt : page * 50 < items.length
    · simp only [hlt, decide_True]
      rw [if_pos trivial]
      have hfuel1 : 1 ≤ fuel := by
        by_contra hcon
        have : fuel = 0 := by omega
        subst this
        omega
      rw [ih (page + 1) _ _ (by omega) hfuel1 (by omega)]
      have hdrop : (acc ++ (items.drop ((page - 1) * 50)).take 50) ++
          items.drop ((page + 1 - 1) * 50) = acc ++ items.drop ((page - 1) * 50) := by
        rw [List.append_assoc]
        congr 1
        have hdd : items.drop ((page + 1 - 1) * 50) = (items.drop ((page - 1) * 50)).drop 50 := by
          rw [List.drop_drop]
          congr 1
          omega
        rw [hdd, List.take_append_drop]
      rw [hdrop]
      congr 1
      have hr : 50 < items.length - (page - 1) * 50 := by omega
      have hsub : items.length - (page + 1 - 1) * 50 =
          items.length - (page - 1) * 50 - 50 := by omega
      rw [hsub, pages_step _ hr, Nat.add_comm 1 _, List.range_succ_eq_map]
      simp only [List.map_cons, List.map_map, Nat.add_zero, List.append_assoc,
        List.singleton_append]
      congr 1
      congr 1
      apply List.map_congr_left
      intro i hi
      simp only [Function.comp]
      congr 1
      omega
    · simp only [hlt, decide_False]
      rw [if_neg (by simp)]
      have htake : (items.drop ((page - 1) * 50)).take 50 = items.drop ((page - 1) * 50) := by
        apply List.take_of_length_le
        rw [List.length_drop]
        omega
      rw [htake]
      congr 1
      rw [pages_small _ (by omega)]
      simp [List.range_succ]

/-- C2 (amended): for a fake paginated source of `N` items with page size
`P = MAX_PAGE_SIZE = 50` and enough fuel, `depaginated_request` returns
exactly the `N` items in server order and issues requests
`(perPage = 50, page = 1), (50, 2), …` — `ceil(N/P)` of them when `N ≥ 1`,
and exactly one when `N = 0` (the first page must still be fetched to learn
the source is empty), i.e. `max 1 (ceil N/P)` requests in all. -/
theorem depaginate_fake_complete (items : List J) (fuel : Nat)
    (hfuel : 1 ≤ fuel) (hlen : items.length ≤ fuel * 50) :
    depaginated_request (fakeServer items) fuel =
      DepagResult.ok items
        ((List.range (max 1 ((items.length + 49) / 50))).map
          (fun i => (MAX_PAGE_SIZE, 1 + i))) := by
  have := depagAux_fake items fuel 1 [] [] (le_refl 1) hfuel (by simpa using hlen)
  simpa [depaginated_request] using this

/-- C2 witness: a 120-item fake source is depaginated with enough fuel into
all 120 items via requests for pages 1, 2, 3 at perPage 50
(`ceil (120/50) = 3`). -/
theorem depaginate_fake_complete_witness :
    depaginated_request (fakeServer (List.replicate 120 J.null)) 5 =
      DepagResult.ok (List.replicate 120 J.null)
        ((List.range (max 1 (((List.replicate 120 J.null).length + 49) / 50))).map
          (fun i => (MAX_PAGE_SIZE, 1 + i))) :=
  depaginate_fake_complete (List.replicate 120 J.null) 5 (by decide)
    (by rw [List.length_replicate]; norm_num)

/-- C2 counterexample: for `N = 0` the claim's request count `ceil (N/P) = 0`
is wrong — the code still issues one request, `(perPage = 50, page = 1)`,
before it can see `hasNextPage = false`. -/
theorem depaginate_fake_empty_counterexample :
    depaginated_request (fakeServer []) 1 = DepagResult.ok [] [(MAX_PAGE_SIZE, 1)] ∧
      (0 + 49) / 50 = 0 ∧ [(MAX_PAGE_SIZE, 1)].length ≠ (0 + 49) / 50 :=
  ⟨rfl, rfl, by decide⟩

/-- C6: the pagination driver's shape checks fail loudly and finally.  An
empty object reached before `pageInfo` appears trips the first assert; an
intermediate object with two or more keys and no `pageInfo` trips the second;
an object that does contain `pageInfo` but not exactly two keys trips the
third; and whatever assertion message a page trips, the page loop surfaces it
immediately as a fatal `fail` — it performs no retry and returns no partial
accumulated data. -/
theorem depaginate_shape_violation :
    (unwrap (J.obj []) = Except.error "Could not find pageInfo in paginated request.") ∧
    (∀ kvs : List (String × J), "pageInfo" ∉ kvs.map Prod.fst → 2 ≤ kvs.length →
      unwrap (J.obj kvs) =
        Except.error "Cannot de-paginate query with multiple returned fields.") ∧
    (∀ kvs : List (String × J), "pageInfo" ∈ kvs.map Prod.fst → kvs.length ≠ 2 →
      extractPage (J.obj kvs) =
        Except.error "Cannot de-paginate query with multiple returned fields.") ∧
    (∀ (transport : Nat → Nat → J) (fuel page : Nat) (acc : List J)
        (log : List (Nat × Nat)) (e : String),
      extractPage (transport MAX_PAGE_SIZE page) = Except.error e →
      depaginatedAux transport (fuel + 1) page acc log = DepagResult.fail e) := by
  refine ⟨rfl, ?_, ?_, ?_⟩
  · intro kvs hnp hlen
    match kvs with
    | [] => simp at hlen
    | [kv] => simp at hlen
    | kv1 :: kv2 :: rest =>
      rw [unwrap.eq_def]
      dsimp only
      rw [if_neg hnp]
  · intro kvs hp hlen
    have hunwrap : unwrap (J.obj kvs) = Except.ok (J.obj kvs) := by
      rw [unwrap.eq_def]
      dsimp only
      rw [if_pos hp]
    simp only [extractPage, hunwrap]
    rw [if_neg hlen]
  · intro transport fuel page acc log e he
    rw [depaginatedAux, he]

/-- C6 witness: the assert characterizations applied at concrete shapes — a
two-key object without `pageInfo`, a one-key object containing `pageInfo`,
and a transport whose page trips an assert. -/
theorem depaginate_shape_violation_witness :
    (unwrap (J.obj [("a", J.null), ("b", J.null)]) =
      Except.error "Cannot de-paginate query with multiple returned fields.") ∧
    (extractPage (J.obj [("pageInfo", J.null)]) =
      Except.error "Cannot de-paginate query with multiple returned fields.") ∧
    (depaginatedAux (fun _ _ => J.obj []) 1 1 [] [] =
      DepagResult.fail "Could not find pageInfo in paginated request.") := by
  refine ⟨?_, ?_, ?_⟩
  · exact depaginate_shape_violation.2.1 [("a", J.null), ("b", J.null)] (by decide) (by decide)
  · exact depaginate_shape_violation.2.2.1 [("pageInfo", J.null)] (by decide) (by decide)
  · exact depaginate_shape_violation.2.2.2 (fun _ _ => J.obj []) 0 1 [] [] _ rfl

theorem sendAux_spec :
    ∀ (responses : List Resp) (final : Resp) (n : Nat) (sleeps : List (Option Nat)),
      sendAux responses = some (final, n, sleeps) →
      1 ≤ n ∧ n ≤ responses.length ∧ responses.get? (n - 1) = some final ∧
        final.status ≠ 429 ∧
        (∀ i, i < n - 1 → ∃ r, responses.get? i = some r ∧ r.status = 429) := by
  intro responses
  induction responses with
  | nil => intro final n sleeps h; simp [sendAux] at h
  | cons r rest ih =>
    intro final n sleeps h
    by_cases hs : r.status = 429
    · rw [sendAux, if_pos hs] at h
      match hrec : sendAux rest with
      | none => rw [hrec] at h; exact absurd h (by simp)
      | some (final', m, sleeps') =>
        rw [hrec] at h
        simp only [Option.some_inj] at h
        obtain ⟨hf, h23⟩ := Prod.ext_iff.mp h
        obtain ⟨hn, hsl⟩ := Prod.ext_iff.mp h23
        simp only at hf hn hsl
        subst hf
        subst hn
        obtain ⟨hm1, hmlen, hget, hst, hall⟩ := ih final' m sleeps' hrec
        refine ⟨by omega, by simp only [List.length_cons]; omega, ?_, hst, ?_⟩
        · have hg : (r :: rest).get? (m + 1 - 1) = rest.get? (m - 1) := by
            match m, hm1 with
            | m + 1, _ => rfl
          rw [hg]
          exact hget
        · intro i hi
          match i with
          | 0 => exact ⟨r, rfl, hs⟩
          | i + 1 =>
            have hlt : i < m - 1 := by omega
            obtain ⟨r', hr', hst'⟩ := hall i hlt
            exact ⟨r', by simpa using hr', hst'⟩
    · rw [sendAux, if_neg hs] at h
      simp only [Option.some_inj] at h
      have hfin : r = final := congrArg Prod.fst h
      have hn : n = 1 := by
        have := congrArg Prod.fst (congrArg Prod.snd h)
        simpa using this.symm
      subst hfin hn
      exact ⟨le_refl 1, by simp, rfl, hs, fun i hi => absurd hi (by omega)⟩

theorem sendAux_none :
    ∀ responses : List Resp, sendAux responses = none → ∀ r ∈ responses, r.status = 429 := by
  intro responses
  induction responses with
  | nil => intro _ r hr; simp at hr
  | cons r rest ih =>
    intro h r' hr'
    by_cases hs : r.status = 429
    · rw [sendAux, if_pos hs] at h
      rcases List.mem_cons.mp hr' with he | hm
      · exact he ▸ hs
      · match hrec : sendAux rest with
        | none => exact ih hrec r' hm
        | some p => rw [hrec] at h; exact absurd h (by simp)
    · rw [sendAux, if_neg hs] at h
      exact absurd h (by simp)

/-- C5 counterexample: the retry condition is the 429 status, not the
presence of a `Retry-After` header.  A first response with status 200 that
does carry `Retry-After: 5` is *not* retried: `safe_post_request` issues
exactly one request (it merely sleeps the 6 seconds before returning),
contradicting "retries the same request whenever the response carries a
Retry-After header". -/
theorem send_retry_counterexample :
    (Resp.mk 200 (some 5) (J.obj [("data", J.null)])).retryAfter.isSome = true ∧
      safe_post_request [Resp.mk 200 (some 5) (J.obj [("data", J.null)])] 0 =
        some (SendResult.ok J.null, 1, 1, [some 6]) :=
  ⟨rfl, rfl⟩

/-- C5 (amended): `safe_post_request` retries the same request whenever the
response status is 429 — regardless of whether a `Retry-After` header is
present, the header only selecting the sleep length — with no maximum retry
count, until a non-429 response is obtained; the process-wide `total_queries`
counter is incremented exactly once per call, on the final non-429 response,
and is never incremented for a 429 response (when every response is a 429 the
call never returns and the counter is never touched). -/
theorem send_retries_until_non_429 :
    (∀ (responses : List Resp) (tq : Nat) (res : SendResult) (tq2 n : Nat)
        (sleeps : List (Option Nat)),
      safe_post_request responses tq = some (res, tq2, n, sleeps) →
        tq2 = tq + 1 ∧ 1 ≤ n ∧ n ≤ responses.length ∧
          (∀ i, i < n - 1 → ∃ r, responses.get? i = some r ∧ r.status = 429) ∧
          (∃ r, responses.get? (n - 1) = some r ∧ r.status ≠ 429)) ∧
    (∀ (responses : List Resp) (tq : Nat),
      safe_post_request responses tq = none → ∀ r ∈ responses, r.status = 429) := by
  constructor
  · intro responses tq res tq2 n sleeps h
    match hsend : sendAux responses with
    | none => rw [safe_post_request, hsend] at h; exact absurd h (by simp)
    | some (final, m, sleeps') =>
      obtain ⟨hm1, hmlen, hget, hst, hall⟩ := sendAux_spec responses final m sleeps' hsend
      rw [safe_post_request, hsend] at h
      dsimp only at h
      have hkey : tq2 = tq + 1 ∧ n = m := by
        by_cases hok : 400 ≤ final.status
        · rw [if_pos hok] at h
          simp only [Option.some_inj] at h
          obtain ⟨_, h23⟩ := Prod.ext_iff.mp h
          obtain ⟨h2, h34⟩ := Prod.ext_iff.mp h23
          obtain ⟨h3, _⟩ := Prod.ext_iff.mp h34
          exact ⟨h2.symm, h3.symm⟩
        · rw [if_neg hok] at h
          match hdata : jGet final.body "data" with
          | some d =>
            rw [hdata] at h
            simp only [Option.some_inj] at h
            obtain ⟨_, h23⟩ := Prod.ext_iff.mp h
            obtain ⟨h2, h34⟩ := Prod.ext_iff.mp h23
            obtain ⟨h3, _⟩ := Prod.ext_iff.mp h34
            exact ⟨h2.symm, h3.symm⟩
          | none =>
            rw [hdata] at h
            simp only [Option.some_inj] at h
            obtain ⟨_, h23⟩ := Prod.ext_iff.mp h
            obtain ⟨h2, h34⟩ := Prod.ext_iff.mp h23
            obtain ⟨h3, _⟩ := Prod.ext_iff.mp h34
            exact ⟨h2.symm, h3.symm⟩
      obtain ⟨htq, hnm⟩ := hkey
      subst hnm
      exact ⟨htq, hm1, hmlen, hall, final, hget, hst⟩
  · intro responses tq h r hr
    match hsend : sendAux responses with
    | none => exact sendAux_none responses hsend r hr
    | some (final, m, sleeps') =>
      rw [safe_post_request, hsend] at h
      dsimp only at h
      by_cases hok : 400 ≤ final.status
      · rw [if_pos hok] at h
        exact absurd h (by simp)
      · rw [if_neg hok] at h
        match hdata : jGet final.body "data" with
        | some d => rw [hdata] at h; exact absurd h (by simp)
        | none => rw [hdata] at h; exact absurd h (by simp)

/-- C5 witness: the amended theorem applied to a concrete run — one 429
(with no Retry-After header) followed by a 200 carrying `data`: the counter
goes from 5 to 6 (incremented once, not for the 429), two requests are made,
every request before the last got a 429, and the last did not. -/
theorem send_retries_until_non_429_witness :
    6 = 5 + 1 ∧ 1 ≤ 2 ∧
      2 ≤ [Resp.mk 429 none J.null, Resp.mk 200 none (J.obj [("data", J.num 7)])].length ∧
      (∀ i, i < 2 - 1 →
        ∃ r, [Resp.mk 429 none J.null,
              Resp.mk 200 none (J.obj [("data", J.num 7)])].get? i = some r ∧ r.status = 429) ∧
      (∃ r, [Resp.mk 429 none J.null,
             Resp.mk 200 none (J.obj [("data", J.num 7)])].get? (2 - 1) = some r ∧
          r.status ≠ 429) :=
  send_retries_until_non_429.1
    [Resp.mk 429 none J.null, Resp.mk 200 none (J.obj [("data", J.num 7)])] 5
    (SendResult.ok (J.num 7)) 6 2 [none, none] rfl

/-- C9: `safe_post_request` raises a fatal failure iff the final non-429
response has an error HTTP status (≥ 400, `not response.ok`); in that case,
and only then, the body's `errors` list is printed exactly when the `errors`
field is present (recorded by the raised flag), before the failure
propagates; on a non-error response the body's `data` field is returned
unchanged. -/
theorem send_error_handling :
    ∀ (responses : List Resp) (tq : Nat) (final : Resp) (n : Nat)
      (sleeps : List (Option Nat)), sendAux responses = some (final, n, sleeps) →
      ((∃ b tq2 n2 s2,
          safe_post_request responses tq = some (SendResult.raised b, tq2, n2, s2)) ↔
        400 ≤ final.status) ∧
      (400 ≤ final.status →
        safe_post_request responses tq =
          some (SendResult.raised ((jGet final.body "errors").isSome), tq + 1, n, sleeps)) ∧
      (∀ d, final.status < 400 → jGet final.body "data" = some d →
        safe_post_request responses tq = some (SendResult.ok d, tq + 1, n, sleeps)) := by
  intro responses tq final n sleeps hsend
  have hraise : 400 ≤ final.status →
      safe_post_request responses tq =
        some (SendResult.raised ((jGet final.body "errors").isSome), tq + 1, n, sleeps) := by
    intro hok
    rw [safe_post_request, hsend]
    dsimp only
    rw [if_pos hok]
  refine ⟨⟨?_, fun hok => ⟨_, _, _, _, hraise hok⟩⟩, hraise, ?_⟩
  · rintro ⟨b, tq2, n2, s2, h⟩
    by_contra hok
    rw [safe_post_request, hsend] at h
    dsimp only at h
    rw [if_neg hok] at h
    match hdata : jGet final.body "data" with
    | some d => rw [hdata] at h; exact absurd h (by simp)
    | none => rw [hdata] at h; exact absurd h (by simp)
  · intro d hlt hdata
    rw [safe_post_request, hsend]
    dsimp only
    rw [if_neg (show ¬ 400 ≤ final.status by omega), hdata]

/-- C9 witness: the error-handling theorem applied to a run whose final
response is a 404 with an `errors` list in the body — the failure is raised
with the errors surfaced — and to a run ending in a 200 — the `data` field
is returned unchanged. -/
theorem send_error_handling_witness :
    safe_post_request [Resp.mk 404 none
        (J.obj [("errors", J.list [J.str "Not Found."]), ("data", J.null)])] 0 =
      some (SendResult.raised ((jGet (J.obj [("errors", J.list [J.str "Not Found."]),
          ("data", J.null)]) "errors").isSome), 0 + 1, 1, [none]) ∧
    safe_post_request [Resp.mk 200 none (J.obj [("data", J.num 3)])] 7 =
      some (SendResult.ok (J.num 3), 7 + 1, 1, [none]) := by
  constructor
  · exact (send_error_handling [Resp.mk 404 none
      (J.obj [("errors", J.list [J.str "Not Found."]), ("data", J.null)])] 0
      (Resp.mk 404 none (J.obj [("errors", J.list [J.str "Not Found."]), ("data", J.null)]))
      1 [none] rfl).2.1 (by norm_num)
  · exact (send_error_handling [Resp.mk 200 none (J.obj [("data", J.num 3)])] 7
      (Resp.mk 200 none (J.obj [("data", J.num 3)])) 1 [none] rfl).2.2
      (J.num 3) (by norm_num) rfl

theorem async_any_spec :
    ∀ l : List Bool,
      ((async_any l).1 = l.any id) ∧
        ((async_any l).1 = true → (async_any l).2 = l.findIdx (fun b => b) + 1) ∧
        ((async_any l).1 = false → (async_any l).2 = l.length) := by
  intro l
  induction l with
  | nil => exact ⟨rfl, fun h => absurd h (by simp [async_any]), fun _ => rfl⟩
  | cons b rest ih =>
    match b with
    | true =>
      refine ⟨by simp [async_any], ?_, ?_⟩
      · intro _
        simp [async_any, List.findIdx_cons]
      · intro h
        simp [async_any] at h
    | false =>
      obtain ⟨hany, htrue, hfalse⟩ := ih
      refine ⟨?_, ?_, ?_⟩
      · simp only [async_any, List.any_cons, id, Bool.false_or]
        exact hany
      · intro h
        simp only [async_any, Bool.false_eq_true, if_false] at h ⊢
        rw [List.findIdx_cons]
        simp only [cond_false]
        rw [htrue h]
      · intro h
        simp only [async_any, Bool.false_eq_true, if_false] at h ⊢
        rw [List.length_cons, hfalse h]

/-- C4: the membership matcher built on `async_any` over the walker's yields
returns true iff some yielded node's id is in the user's set; when it returns
true it has consumed exactly the yields up to and including the first match
(one more than the index of the first true test), and when it returns false
it has consumed the entire walk.  On the yield-test sequence produced by ids
`[1, 42, 999]` against user set `{42}` it returns true after consuming
exactly two yields. -/
theorem matcher_short_circuit :
    (∀ (g : Graph) (showId fuel : Nat) (userIds : Finset Nat),
      ((hasUpcomingRelation g showId fuel userIds).1 = true ↔
        ∃ m ∈ (get_related_media g showId fuel).1, m.id ∈ userIds) ∧
      ((hasUpcomingRelation g showId fuel userIds).1 = true →
        (hasUpcomingRelation g showId fuel userIds).2 =
          ((get_related_media g showId fuel).1.map
            (fun m => decide (m.id ∈ userIds))).findIdx (fun b => b) + 1) ∧
      ((hasUpcomingRelation g showId fuel userIds).1 = false →
        (hasUpcomingRelation g showId fuel userIds).2 =
          (get_related_media g showId fuel).1.length)) ∧
    async_any ([1, 42, 999].map (fun y => decide (y ∈ ({42} : Finset Nat)))) = (true, 2) := by
  constructor
  · intro g showId fuel userIds
    obtain ⟨hany, htrue, hfalse⟩ :=
      async_any_spec (((get_related_media g showId fuel).1).map
        (fun m => decide (m.id ∈ userIds)))
    refine ⟨?_, htrue, ?_⟩
    · rw [hasUpcomingRelation, hany]
      simp [List.any_eq_true]
    · intro h
      rw [hasUpcomingRelation] at h ⊢
      rw [hfalse h, List.length_map]
  · decide

/-- C4 witness: the matcher consumption law applied to the cyclic example —
the single match is the first yield, so exactly one yield is consumed. -/
theorem matcher_short_circuit_witness :
    (hasUpcomingRelation cycleGraph 1 3 {2}).2 =
      ((get_related_media cycleGraph 1 3).1.map
        (fun m => decide (m.id ∈ ({2} : Finset Nat)))).findIdx (fun b => b) + 1 :=
  (matcher_short_circuit.1 cycleGraph 1 3 {2}).2.1 (by decide)

/-- C8: the `--planning`/`--completed` flags are parsed but never consulted:
for any fixed API data, any two flag settings yield the same `UserMediaIds`,
which is always the union of the media ids of the COMPLETED, PLANNING and
CURRENT lists. -/
theorem flags_do_not_affect_user_media_ids :
    ∀ (userMedia : String → List Media) (p1 c1 p2 c2 : Bool),
      user_media_ids userMedia p1 c1 = user_media_ids userMedia p2 c2 ∧
      user_media_ids userMedia p1 c1 =
        ((userMedia "COMPLETED").map Media.id).toFinset ∪
          ((userMedia "PLANNING").map Media.id).toFinset ∪
          ((userMedia "CURRENT").map Media.id).toFinset := by
  intro userMedia p1 c1 p2 c2
  refine ⟨rfl, ?_⟩
  simp [user_media_ids, List.foldl_cons, List.foldl_nil, Finset.empty_union]

/-- C10: the printed title is the English title exactly when it is present
and non-empty; a missing (`none`) or empty-string English title falls back to
the romaji title — the fallback triggers on any falsy value, not only
absence. -/
theorem title_fallback :
    ∀ t : Title,
      (∀ s, t.english = some s → s ≠ "" → displayTitle t = s) ∧
      ((t.english = none ∨ t.english = some "") → displayTitle t = t.romaji) := by
  intro t
  constructor
  · intro s hs hne
    rw [displayTitle, hs]
    dsimp only
    rw [if_neg hne]
  · rintro (hn | he)
    · rw [displayTitle, hn]
    · rw [displayTitle, he]
      dsimp only
      rw [if_pos rfl]

/-- C10 witness: the fallback law at concrete titles — a non-empty English
title is printed, while empty and missing English titles print romaji. -/
theorem title_fallback_witness :
    displayTitle ⟨some "English Title", "Romaji"⟩ = "English Title" ∧
      displayTitle ⟨some "", "Romaji"⟩ = "Romaji" ∧
      displayTitle ⟨none, "Romaji"⟩ = "Romaji" := by
  refine ⟨?_, ?_, ?_⟩
  · exact (title_fallback ⟨some "English Title", "Romaji"⟩).1 "English Title" rfl (by decide)
  · exact (title_fallback ⟨some "", "Romaji"⟩).2 (Or.inr rfl)
  · exact (title_fallback ⟨none, "Romaji"⟩).2 (Or.inl rfl)
